import Mathlib

/-!
Shallow embedding of the ellipsi element-construction library
(src/ellipsi.ts): the child classifier/assembler `tag`, the attribute
helpers `handleAttributeNode` / `handleAttributeObject` / `attr`, the
event-binding constructor `on`, the shadow-subtree assembler `shadow`,
and the shortcut binder `shortTag` with the named shortcuts `h5`, `h6`.

Host-platform (DOM) primitives are modelled explicitly:
* an element is a tag name, an ordered attribute list, an ordered child
  list, an ordered listener list and an optional shadow root;
* `setAttribute` replaces in place or appends, as in the DOM;
* `setAttributeNode` fails (InUseAttributeError) when the supplied
  attribute node is already owned by an element, and otherwise installs
  its name/value pair — this is what makes the `cloneNode()` call in
  `handleAttributeNode` observable;
* `attachShadow` installs a fresh open-mode root, replacing any previous
  one, per the documented last-write-wins semantics;
* handler callbacks, listener options and stylesheet objects are opaque
  and are modelled by numeric identities.
-/

namespace Ellipsi

/-- One deferred addEventListener registration: the `EventListener` class
of src/ellipsi.ts.  The callback and the options object are opaque to the
library and are modelled by identities. -/
structure EventListener where
  type : String
  callback : Nat
  options : Option Nat
deriving Repr, DecidableEq

/-- A DOM node: an HTMLElement (with its attributes, children, registered
listeners and optional shadow root) or a Text node.  A shadow root is the
triple (mode, adoptedStyleSheets, children). -/
inductive Node where
  | elem (name : String) (attrs : List (String × String)) (kids : List Node)
      (listeners : List EventListener)
      (shadowRoot : Option (String × List Nat × List Node))
  | text (s : String)
deriving Repr

/-- An Attr DOM node.  `owned` records whether it is currently owned by an
element (`ownerElement !== null`); `document.createAttribute` yields an
unowned node. -/
structure AttrNode where
  name : String
  value : String
  owned : Bool
deriving Repr, DecidableEq

/-- A value of the `AttrObject` bag entry type: `string | Array<string>`. -/
inductive AttrEntryVal where
  | str (s : String)
  | strs (l : List String)
deriving Repr, DecidableEq

/-- The `Shadow` container class of src/ellipsi.ts: the components and
adopted stylesheets of a potential future `attachShadow` call. -/
structure Shadow where
  children : List Node
  sheets : List Nat
deriving Repr

/-- The `TagChild` alphabet of the assembler, one constructor per runtime
shape the classifier distinguishes: an existing HTMLElement/Text node, an
Attr node, an EventListener, a Shadow, a nested array, a plain attribute
bag (its entries in key order), any other non-null value (carried as its
string conversion), and null/undefined. -/
inductive Child where
  | node (n : Node)
  | attrNode (a : AttrNode)
  | listener (l : EventListener)
  | shadowDesc (s : Shadow)
  | arr (cs : List Child)
  | attrObj (entries : List (String × AttrEntryVal))
  | scalar (s : String)
  | cnull
deriving Repr

/-- The mutable state of the element being assembled by `tag` before it is
returned. -/
structure ElemState where
  name : String
  attrs : List (String × String)
  kids : List Node
  listeners : List EventListener
  shadowRoot : Option (String × List Nat × List Node)
deriving Repr

/-- DOM `hasAttribute`. -/
def hasAttribute (attrs : List (String × String)) (name : String) : Bool :=
  attrs.any (fun p => p.1 == name)

/-- DOM `getAttribute` (`none` models the null return). -/
def getAttribute (attrs : List (String × String)) (name : String) :
    Option String :=
  (attrs.find? (fun p => p.1 == name)).map (fun p => p.2)

/-- DOM `setAttribute`: replace the value in place when the attribute is
present, otherwise append it. -/
def setAttribute (attrs : List (String × String)) (name value : String) :
    List (String × String) :=
  if hasAttribute attrs name then
    attrs.map (fun p => if p.1 == name then (name, value) else p)
  else
    attrs ++ [(name, value)]

/-- DOM `Attr.cloneNode()`: a fresh, unowned copy of the node. -/
def cloneNode (a : AttrNode) : AttrNode :=
  { a with owned := false }

/-- DOM `setAttributeNode`: installing an attribute node that is already
owned by an element raises InUseAttributeError; an unowned node is adopted
and its name/value pair installed. -/
def setAttributeNode (attrs : List (String × String)) (a : AttrNode) :
    Except String (List (String × String)) :=
  if a.owned then Except.error "InUseAttributeError"
  else Except.ok (setAttribute attrs a.name a.value)

/-- The `handleAttributeNode` helper of src/ellipsi.ts: merge an Attr node
into the element.  When the attribute is present the new value is the
current value, a space, and the node's value; otherwise a clone of the
node is installed via `setAttributeNode`.  The second component of the
result is the state of the source Attr node after the call (the source is
never touched, only its clone is adopted). -/
def handleAttributeNode (attrs : List (String × String)) (attrNode : AttrNode) :
    Except String (List (String × String) × AttrNode) :=
  if hasAttribute attrs attrNode.name then
    let currentValue := (getAttribute attrs attrNode.name).getD ""
    Except.ok
      (setAttribute attrs attrNode.name
        (currentValue ++ " " ++ attrNode.value), attrNode)
  else
    (setAttributeNode attrs (cloneNode attrNode)).map
      (fun attrs2 => (attrs2, attrNode))

/-- String value of one attribute-bag entry: an array is joined with a
single space. -/
def entryValue : AttrEntryVal → String
  | AttrEntryVal.str s => s
  | AttrEntryVal.strs l => String.intercalate " " l

/-- The `handleAttributeObject` helper of src/ellipsi.ts: merge each bag
entry into the element's attribute set in key order, with array values
space-joined first; an already-present attribute accumulates
current ++ " " ++ new. -/
def handleAttributeObject (attrs : List (String × String))
    (attrObj : List (String × AttrEntryVal)) : List (String × String) :=
  attrObj.foldl
    (fun acc kv =>
      let newValue := entryValue kv.2
      if hasAttribute acc kv.1 then
        setAttribute acc kv.1 (((getAttribute acc kv.1).getD "") ++ " " ++ newValue)
      else
        setAttribute acc kv.1 newValue)
    attrs

mutual

/-- One step of the classifier loop body inside `tag`: dispatch one child
by shape, in the branch order of the source. -/
def processChild (st : ElemState) : Child → Except String ElemState
  | Child.node n => Except.ok { st with kids := st.kids ++ [n] }
  | Child.attrNode a =>
      (handleAttributeNode st.attrs a).map
        (fun r => { st with attrs := r.1 })
  | Child.listener l =>
      Except.ok { st with listeners := st.listeners ++ [l] }
  | Child.shadowDesc s =>
      Except.ok { st with shadowRoot := some ("open", s.sheets, s.children) }
  | Child.arr cs => processList st cs
  | Child.attrObj entries =>
      Except.ok { st with attrs := handleAttributeObject st.attrs entries }
  | Child.scalar s =>
      Except.ok { st with kids := st.kids ++ [Node.text s] }
  | Child.cnull => Except.ok st

/-- The `process` loop of `tag`: left-to-right over the children, a raised
platform error aborting the pass. -/
def processList (st : ElemState) : List Child → Except String ElemState
  | [] => Except.ok st
  | c :: cs =>
      match processChild st c with
      | Except.ok st2 => processList st2 cs
      | Except.error e => Except.error e

end

/-- Package the finished assembly state as the returned element. -/
def finalize (st : ElemState) : Node :=
  Node.elem st.name st.attrs st.kids st.listeners st.shadowRoot

/-- The `tag` factory of src/ellipsi.ts: create an empty element of the
given name, run the classifier over the children, return the element. -/
def tag (name : String) (children : List Child) : Except String Node :=
  (processList ⟨name, [], [], [], none⟩ children).map finalize

/-- The `attr` constructor of src/ellipsi.ts: `document.createAttribute`
followed by assigning the value yields an unowned Attr node. -/
def attr (key value : String) : AttrNode :=
  { name := key, value := value, owned := false }

/-- JavaScript `String.prototype.split(' ')` over the character list:
split at every single space, keeping empty pieces, so that the empty
string yields one empty piece. -/
def splitChars : List Char → List (List Char)
  | [] => [[]]
  | c :: cs =>
      match splitChars cs with
      | [] => [[]]
      | w :: ws => if c = ' ' then [] :: w :: ws else (c :: w) :: ws

/-- JavaScript `types.split(' ')`. -/
def splitSpaces (s : String) : List String :=
  (splitChars s.data).map (fun w => String.mk w)

/-- The `on` constructor of src/ellipsi.ts (`on` itself is a notation
token of Mathlib, hence the primed name): split the space-separated type
list and build one EventListener per piece, sharing callback and options. -/
def on' (types : String) (callback : Nat) (options : Option Nat) :
    List EventListener :=
  (splitSpaces types).map (fun t => ⟨t, callback, options⟩)

/-- The `ShadowChild` alphabet of the subtree assembler: a stylesheet (its
opaque identity), an existing node, a nested array, any other non-null
value (as its string conversion), and null/undefined. -/
inductive ShadowChild where
  | sheet (id : Nat)
  | node (n : Node)
  | arr (cs : List ShadowChild)
  | scalar (s : String)
  | snull
deriving Repr

mutual

/-- One step of the `process` loop inside `shadow`, in the branch order of
the source. -/
def shadowProcessChild (acc : Shadow) : ShadowChild → Shadow
  | ShadowChild.sheet id => { acc with sheets := acc.sheets ++ [id] }
  | ShadowChild.node n => { acc with children := acc.children ++ [n] }
  | ShadowChild.arr cs => shadowProcessList acc cs
  | ShadowChild.scalar s => { acc with children := acc.children ++ [Node.text s] }
  | ShadowChild.snull => acc

/-- The `process` loop of `shadow`. -/
def shadowProcessList (acc : Shadow) : List ShadowChild → Shadow
  | [] => acc
  | c :: cs => shadowProcessList (shadowProcessChild acc c) cs

end

/-- The `shadow` subtree assembler of src/ellipsi.ts: collect stylesheets
and component nodes from the (possibly nested) children and bundle them as
a `Shadow`. -/
def shadow (children : List ShadowChild) : Shadow :=
  shadowProcessList ⟨[], []⟩ children

/-- The `shortTag` binder of src/ellipsi.ts: a closure calling `tag` with
the preset children spread before the call-time children. -/
def shortTag (name : String) (x : List Child) : List Child → Except String Node :=
  fun y => tag name (x ++ y)

/-- The exported shortcut `h5` of src/ellipsi.ts, line 230: defined as
shortTag applied to the tag name "h6". -/
def h5 : List Child → Except String Node :=
  shortTag "h6" []

/-- The exported shortcut `h6` of src/ellipsi.ts, line 231. -/
def h6 : List Child → Except String Node :=
  shortTag "h6" []

/-- Observation: the tag name of a node (empty for a text node). -/
def nameOf : Node → String
  | Node.elem n _ _ _ _ => n
  | Node.text _ => ""

/-- Observation: the attribute list of a node. -/
def attrsOf : Node → List (String × String)
  | Node.elem _ attrs _ _ _ => attrs
  | Node.text _ => []

/-- Observation: the shadow root of a node. -/
def shadowRootOf : Node → Option (String × List Nat × List Node)
  | Node.elem _ _ _ _ r => r
  | Node.text _ => none

mutual

/-- Observation: the last Shadow descriptor inside one child, in the
depth-first left-to-right traversal order of the assembler. -/
def lastShadowChild : Child → Option Shadow
  | Child.shadowDesc s => some s
  | Child.arr cs => lastShadowList cs
  | _ => none

/-- Observation: the last Shadow descriptor in a children list. -/
def lastShadowList : List Child → Option Shadow
  | [] => none
  | c :: cs =>
      match lastShadowList cs with
      | some s => some s
      | none => lastShadowChild c

end

/-! Helper lemmas about the modelled DOM attribute primitives. -/

/-- Presence of an attribute coincides with `getAttribute` returning a
value. -/
theorem hasAttribute_eq_isSome (attrs : List (String × String)) (n : String) :
    hasAttribute attrs n = (getAttribute attrs n).isSome := by
  induction attrs with
  | nil => rfl
  | cons p rest ih =>
    by_cases hp : p.1 == n
    · simp [hasAttribute, getAttribute, List.find?, hp]
    · simp only [Bool.not_eq_true] at hp
      simp [hasAttribute, getAttribute, List.find?, hp] at ih ⊢
      exact ih

/-- Replacing a present attribute in place makes `getAttribute` see the new
value. -/
theorem getAttribute_map_set (attrs : List (String × String)) (n v : String)
    (h : hasAttribute attrs n = true) :
    getAttribute (attrs.map (fun p => if p.1 == n then (n, v) else p)) n =
      some v := by
  induction attrs with
  | nil => simp [hasAttribute] at h
  | cons p rest ih =>
    by_cases hp : p.1 == n
    · simp [getAttribute, List.find?, hp]
    · simp only [Bool.not_eq_true] at hp
      have h2 : hasAttribute rest n = true := by
        simpa [hasAttribute, hp] using h
      simpa [getAttribute, List.find?, hp] using ih h2

/-- Appending a fresh attribute makes `getAttribute` see its value. -/
theorem getAttribute_append_new (attrs : List (String × String)) (n v : String)
    (h : hasAttribute attrs n = false) :
    getAttribute (attrs ++ [(n, v)]) n = some v := by
  induction attrs with
  | nil => simp [getAttribute, List.find?]
  | cons p rest ih =>
    have hp : (p.1 == n) = false := by
      by_contra hc
      simp only [Bool.not_eq_false] at hc
      simp [hasAttribute, hc] at h
    have h2 : hasAttribute rest n = false := by
      simpa [hasAttribute, hp] using h
    simpa [getAttribute, List.find?, hp] using ih h2

/-- Reading back the attribute just written by `setAttribute`. -/
theorem getAttribute_setAttribute_self (attrs : List (String × String))
    (n v : String) :
    getAttribute (setAttribute attrs n v) n = some v := by
  unfold setAttribute
  by_cases h : hasAttribute attrs n
  · simpa [h] using getAttribute_map_set attrs n v h
  · simp only [Bool.not_eq_true] at h
    simpa [h] using getAttribute_append_new attrs n v h

/-- After `setAttribute` the attribute is present. -/
theorem hasAttribute_setAttribute_self (attrs : List (String × String))
    (n v : String) :
    hasAttribute (setAttribute attrs n v) n = true := by
  rw [hasAttribute_eq_isSome, getAttribute_setAttribute_self]
  rfl

/-- Closed form of `handleAttributeNode`: it always succeeds (the clone it
installs is unowned), accumulates when the attribute is present, installs
the value when it is absent, and hands the source node back untouched. -/
theorem handleAttributeNode_eq (attrs : List (String × String)) (a : AttrNode) :
    handleAttributeNode attrs a =
      Except.ok
        (if hasAttribute attrs a.name then
          setAttribute attrs a.name
            (((getAttribute attrs a.name).getD "") ++ " " ++ a.value)
        else setAttribute attrs a.name a.value, a) := by
  unfold handleAttributeNode setAttributeNode cloneNode
  by_cases h : hasAttribute attrs a.name <;> simp [h, Except.map]

/-! Helper lemmas about the assembler loop. -/

mutual

/-- The classifier step is total on the child alphabet and never renames
the element under construction. -/
theorem processChild_ok (st : ElemState) (c : Child) :
    ∃ st2, processChild st c = Except.ok st2 ∧ st2.name = st.name := by
  cases c with
  | node n => exact ⟨_, rfl, rfl⟩
  | attrNode a =>
      rw [show processChild st (Child.attrNode a) =
        (handleAttributeNode st.attrs a).map (fun r => { st with attrs := r.1 }) from rfl,
        handleAttributeNode_eq]
      exact ⟨_, rfl, rfl⟩
  | listener l => exact ⟨_, rfl, rfl⟩
  | shadowDesc s => exact ⟨_, rfl, rfl⟩
  | arr cs => exact processList_ok st cs
  | attrObj entries => exact ⟨_, rfl, rfl⟩
  | scalar s => exact ⟨_, rfl, rfl⟩
  | cnull => exact ⟨_, rfl, rfl⟩

/-- The classifier loop is total on children lists and never renames the
element under construction. -/
theorem processList_ok (st : ElemState) (cs : List Child) :
    ∃ st2, processList st cs = Except.ok st2 ∧ st2.name = st.name := by
  cases cs with
  | nil => exact ⟨st, rfl, rfl⟩
  | cons c cs =>
      obtain ⟨st1, h1, hn1⟩ := processChild_ok st c
      obtain ⟨st2, h2, hn2⟩ := processList_ok st1 cs
      refine ⟨st2, ?_, hn2.trans hn1⟩
      simp [processList, h1, h2]

end

/-- Processing a concatenation is processing the first part and then the
second. -/
theorem processList_append (st : ElemState) (cs ds : List Child) :
    processList st (cs ++ ds) =
      (processList st cs).bind (fun st2 => processList st2 ds) := by
  induction cs generalizing st with
  | nil => simp [processList, Except.bind]
  | cons c cs ih =>
      simp only [List.cons_append, processList]
      cases h : processChild st c with
      | ok st2 => simp [h, ih st2, Except.bind]
      | error e => simp [h, Except.bind]

/-- A nested-array child at the head of the worklist is equivalent to
inlining its contents at its position. -/
theorem processList_arr_cons (st : ElemState) (cs rest : List Child) :
    processList st (Child.arr cs :: rest) = processList st (cs ++ rest) := by
  rw [show processList st (Child.arr cs :: rest) =
    (match processList st cs with
      | Except.ok st2 => processList st2 rest
      | Except.error e => Except.error e) from rfl,
    processList_append]
  cases processList st cs <;> rfl

/-- Congruence: equivalent tails give equivalent runs under a common head
child. -/
theorem processList_cons_congr (st : ElemState) (c : Child) (cs ds : List Child)
    (h : ∀ st1, processList st1 cs = processList st1 ds) :
    processList st (c :: cs) = processList st (c :: ds) := by
  rw [show processList st (c :: cs) =
      (match processChild st c with
        | Except.ok st1 => processList st1 cs
        | Except.error e => Except.error e) from rfl,
    show processList st (c :: ds) =
      (match processChild st c with
        | Except.ok st1 => processList st1 ds
        | Except.error e => Except.error e) from rfl]
  cases processChild st c with
  | ok st1 => exact h st1
  | error e => rfl

mutual

/-- The shadow root after one classifier step: set afresh by a Shadow
descriptor (recursively, the last one inside an array child), untouched by
every other child shape. -/
theorem processChild_shadowRoot (st st2 : ElemState) (c : Child)
    (h : processChild st c = Except.ok st2) :
    st2.shadowRoot =
      (match lastShadowChild c with
        | some s => some ("open", s.sheets, s.children)
        | none => st.shadowRoot) := by
  cases c with
  | node n => cases h; rfl
  | attrNode a =>
      rw [show processChild st (Child.attrNode a) =
        (handleAttributeNode st.attrs a).map (fun r => { st with attrs := r.1 }) from rfl,
        handleAttributeNode_eq] at h
      cases h; rfl
  | listener l => cases h; rfl
  | shadowDesc s => cases h; rfl
  | arr cs => exact processList_shadowRoot st st2 cs h
  | attrObj entries => cases h; rfl
  | scalar s => cases h; rfl
  | cnull => cases h; rfl

/-- The shadow root after a classifier run is determined by the last Shadow
descriptor of the (possibly nested) children list, the prior root
otherwise. -/
theorem processList_shadowRoot (st st2 : ElemState) (cs : List Child)
    (h : processList st cs = Except.ok st2) :
    st2.shadowRoot =
      (match lastShadowList cs with
        | some s => some ("open", s.sheets, s.children)
        | none => st.shadowRoot) := by
  cases cs with
  | nil => cases h; rfl
  | cons c cs =>
      rw [show processList st (c :: cs) =
        (match processChild st c with
          | Except.ok st1 => processList st1 cs
          | Except.error e => Except.error e) from rfl] at h
      cases h1 : processChild st c with
      | error e => rw [h1] at h; cases h
      | ok st1 =>
          rw [h1] at h
          have hc := processChild_shadowRoot st st1 c h1
          have hl := processList_shadowRoot st1 st2 cs h
          rw [show lastShadowList (c :: cs) =
            (match lastShadowList cs with
              | some s => some s
              | none => lastShadowChild c) from rfl]
          cases hls : lastShadowList cs with
          | some s => rw [hls] at hl; exact hl
          | none =>
              rw [hls] at hl
              rw [hl, hc]

end

/-- Claim C1: for every target attribute set, attribute name and value, an
attribute contribution — from an Attr node (`handleAttributeNode`) or from
an attribute-bag entry (`handleAttributeObject`) — sets the attribute to
the supplied value when no attribute of that name is present, and
otherwise to the existing value concatenated with a single space and the
new value; in particular merging the bag with class "a" twice yields the
class value "a a", not "a". -/
theorem attribute_merge_accumulates (attrs : List (String × String))
    (a : AttrNode) (key : String) (v : AttrEntryVal) :
    (hasAttribute attrs a.name = false →
      handleAttributeNode attrs a =
        Except.ok (setAttribute attrs a.name a.value, a) ∧
      getAttribute (setAttribute attrs a.name a.value) a.name = some a.value) ∧
    (∀ cur, getAttribute attrs a.name = some cur →
      ∃ r, handleAttributeNode attrs a = Except.ok (r, a) ∧
        getAttribute r a.name = some (cur ++ " " ++ a.value)) ∧
    (hasAttribute attrs key = false →
      getAttribute (handleAttributeObject attrs [(key, v)]) key =
        some (entryValue v)) ∧
    (∀ cur, getAttribute attrs key = some cur →
      getAttribute (handleAttributeObject attrs [(key, v)]) key =
        some (cur ++ " " ++ entryValue v)) ∧
    getAttribute
      (handleAttributeObject
        (handleAttributeObject [] [("class", AttrEntryVal.str "a")])
        [("class", AttrEntryVal.str "a")]) "class" = some "a a" := by
  refine ⟨?_, ?_, ?_, ?_, by decide⟩
  · intro h
    rw [handleAttributeNode_eq, h]
    exact ⟨rfl, getAttribute_setAttribute_self attrs a.name a.value⟩
  · intro cur hcur
    have h : hasAttribute attrs a.name = true := by
      rw [hasAttribute_eq_isSome, hcur]; rfl
    rw [handleAttributeNode_eq, h]
    refine ⟨_, rfl, ?_⟩
    simp only [if_true, hcur, Option.getD_some]
    exact getAttribute_setAttribute_self attrs a.name (cur ++ " " ++ a.value)
  · intro h
    simp only [handleAttributeObject, List.foldl, h, if_neg, Bool.false_eq_true,
      not_false_iff, if_false]
    exact getAttribute_setAttribute_self attrs key (entryValue v)
  · intro cur hcur
    have h : hasAttribute attrs key = true := by
      rw [hasAttribute_eq_isSome, hcur]; rfl
    simp only [handleAttributeObject, List.foldl, h, if_true, hcur,
      Option.getD_some]
    exact getAttribute_setAttribute_self attrs key (cur ++ " " ++ entryValue v)

/-- Witness for claim C1, instantiating both the absent-attribute and the
present-attribute arms of the merge rule at concrete inputs. -/
theorem attribute_merge_accumulates_witness :
    (handleAttributeNode [] ⟨"class", "a", false⟩ =
        Except.ok (setAttribute [] "class" "a", ⟨"class", "a", false⟩) ∧
      getAttribute (setAttribute [] "class" "a") "class" = some "a") ∧
    (∃ r, handleAttributeNode [("class", "a")] ⟨"class", "b", false⟩ =
        Except.ok (r, ⟨"class", "b", false⟩) ∧
      getAttribute r "class" = some ("a" ++ " " ++ "b")) ∧
    getAttribute (handleAttributeObject [] [("id", AttrEntryVal.str "z")]) "id" =
      some (entryValue (AttrEntryVal.str "z")) ∧
    getAttribute
        (handleAttributeObject [("id", "z")] [("id", AttrEntryVal.str "w")])
        "id" =
      some ("z" ++ " " ++ entryValue (AttrEntryVal.str "w")) :=
  ⟨(attribute_merge_accumulates [] ⟨"class", "a", false⟩ "x"
      (AttrEntryVal.str "y")).1 (by decide),
   (attribute_merge_accumulates [("class", "a")] ⟨"class", "b", false⟩ "x"
      (AttrEntryVal.str "y")).2.1 "a" (by decide),
   (attribute_merge_accumulates [] ⟨"c", "d", false⟩ "id"
      (AttrEntryVal.str "z")).2.2.1 (by decide),
   (attribute_merge_accumulates [("id", "z")] ⟨"c", "d", false⟩ "id"
      (AttrEntryVal.str "w")).2.2.2.1 "z" (by decide)⟩

/-- Claim C2: the assembler's classification is total — every child of the
alphabet is processed without an error, an unrecognized (scalar) shape is
appended as a text node, a null/undefined leaf leaves the element state
untouched and can be dropped from any position of the children list, and
the factory as a whole always returns an element. -/
theorem assembler_total_null_noop :
    (∀ st c, ∃ st2, processChild st c = Except.ok st2) ∧
    (∀ st s, processChild st (Child.scalar s) =
      Except.ok { st with kids := st.kids ++ [Node.text s] }) ∧
    (∀ st, processChild st Child.cnull = Except.ok st) ∧
    (∀ st cs ds, processList st (cs ++ Child.cnull :: ds) =
      processList st (cs ++ ds)) ∧
    (∀ name cs, ∃ e, tag name cs = Except.ok e) := by
  refine ⟨fun st c => (processChild_ok st c).elim (fun st2 h => ⟨st2, h.1⟩),
    fun st s => rfl, fun st => rfl, ?_, ?_⟩
  · intro st cs ds
    rw [processList_append, processList_append]
    rfl
  · intro name cs
    obtain ⟨st2, h, -⟩ := processList_ok ⟨name, [], [], [], none⟩ cs
    exact ⟨finalize st2, by rw [tag, h]; rfl⟩

/-- Claim C3: nested-sequence flattening is fully transparent — for every
tag name and children x, y, z, building from the nested list [[x, [y]], z]
yields the same element as building from x, y, z, and in general an array
child is equivalent to inlining its contents at its position. -/
theorem nested_array_flattening (name : String) (x y z : Child) :
    tag name [Child.arr [Child.arr [x, Child.arr [y]], z]] =
      tag name [x, y, z] ∧
    (∀ st cs rest, processList st (Child.arr cs :: rest) =
      processList st (cs ++ rest)) := by
  refine ⟨?_, processList_arr_cons⟩
  rw [tag, tag]
  congr 1
  have h1 := processList_arr_cons ⟨name, [], [], [], none⟩
    [Child.arr [x, Child.arr [y]], z] []
  rw [List.append_nil] at h1
  rw [h1, processList_arr_cons ⟨name, [], [], [], none⟩ [x, Child.arr [y]] [z]]
  exact processList_cons_congr ⟨name, [], [], [], none⟩ x [Child.arr [y], z]
    [y, z] (fun st1 => processList_arr_cons st1 [y] [z])

/-- Claim C4: an element built by the factory acquires zero encapsulated
roots when no Shadow descriptor occurs among its (possibly nested)
children, and exactly one — the one attached by the last descriptor —
when descriptors occur; with two descriptors the assembly succeeds and
only the second root is observably attached (last-write-wins). -/
theorem shadow_last_write_wins (name : String) :
    (∀ cs, lastShadowList cs = none →
      ∃ e, tag name cs = Except.ok e ∧ shadowRootOf e = none) ∧
    (∀ cs s, lastShadowList cs = some s →
      ∃ e, tag name cs = Except.ok e ∧
        shadowRootOf e = some ("open", s.sheets, s.children)) ∧
    (∀ s1 s2, ∃ e,
      tag name [Child.shadowDesc s1, Child.shadowDesc s2] = Except.ok e ∧
        shadowRootOf e = some ("open", s2.sheets, s2.children)) := by
  have key : ∀ cs, ∃ st2,
      tag name cs = Except.ok (finalize st2) ∧
      st2.shadowRoot =
        (match lastShadowList cs with
          | some s => some ("open", s.sheets, s.children)
          | none => none) := by
    intro cs
    obtain ⟨st2, h, -⟩ := processList_ok ⟨name, [], [], [], none⟩ cs
    refine ⟨st2, by rw [tag, h]; rfl, ?_⟩
    exact processList_shadowRoot ⟨name, [], [], [], none⟩ st2 cs h
  have some_case : ∀ cs s, lastShadowList cs = some s →
      ∃ e, tag name cs = Except.ok e ∧
        shadowRootOf e = some ("open", s.sheets, s.children) := by
    intro cs s hs
    obtain ⟨st2, h, hr⟩ := key cs
    rw [hs] at hr
    exact ⟨finalize st2, h, hr⟩
  refine ⟨?_, some_case,
    fun s1 s2 => some_case [Child.shadowDesc s1, Child.shadowDesc s2] s2 rfl⟩
  intro cs hn
  obtain ⟨st2, h, hr⟩ := key cs
  rw [hn] at hr
  exact ⟨finalize st2, h, hr⟩

/-- Witness for claim C4: no root for a shadow-free child list; with two
Shadow descriptors the assembly succeeds and the second descriptor's
stylesheets are adopted by the sole attached root. -/
theorem shadow_last_write_wins_witness :
    (∃ e, tag "div" [Child.scalar "x"] = Except.ok e ∧
      shadowRootOf e = none) ∧
    (∃ e, tag "div" [Child.shadowDesc ⟨[], [1]⟩, Child.shadowDesc ⟨[], [2]⟩] =
        Except.ok e ∧
      shadowRootOf e = some ("open", ([2] : List Nat), ([] : List Node))) :=
  ⟨(shadow_last_write_wins "div").1 [Child.scalar "x"] rfl,
   (shadow_last_write_wins "div").2.1
     [Child.shadowDesc ⟨[], [1]⟩, Child.shadowDesc ⟨[], [2]⟩] ⟨[], [2]⟩ rfl⟩

/-- Claim C5: for every space-separated event-type string, callback and
options, `on` returns one EventListener per type piece of the string, in
order, all sharing the callback and the options; in particular the string
"click touchstart" yields exactly the bindings (click, cb) and
(touchstart, cb), in that order. -/
theorem on_expands_per_type (types : String) (cb : Nat) (opts : Option Nat) :
    (on' types cb opts).map (fun b => b.type) = splitSpaces types ∧
    (on' types cb opts).length = (splitSpaces types).length ∧
    (∀ b ∈ on' types cb opts, b.callback = cb ∧ b.options = opts) ∧
    on' "click touchstart" cb opts =
      [⟨"click", cb, opts⟩, ⟨"touchstart", cb, opts⟩] := by
  refine ⟨?_, ?_, ?_, ?_⟩
  · simp only [on', List.map_map]
    exact List.map_id _
  · simp [on']
  · intro b hb
    simp only [on', List.mem_map] at hb
    obtain ⟨t, -, rfl⟩ := hb
    exact ⟨rfl, rfl⟩
  · rw [on',
      show splitSpaces "click touchstart" = ["click", "touchstart"] from by decide]
    rfl

/-- Witness for claim C5: the binding produced for "click" in the
two-type example shares the supplied callback and options. -/
theorem on_expands_per_type_witness :
    (⟨"click", 7, none⟩ : EventListener).callback = 7 ∧
    (⟨"click", 7, none⟩ : EventListener).options = none :=
  (on_expands_per_type "click touchstart" 7 none).2.2.1 ⟨"click", 7, none⟩
    (by decide)

/-- Claim C6: a Shadow descriptor child installs exactly one open-mode
encapsulated root on the target, with the descriptor's stylesheet list as
the root's adopted set (replacing any prior root wholesale) and the
descriptor's nodes as the root's children in order; end to end, attaching
the subtree built from a stylesheet and a span with text "s" to a div
yields one open root with that one adopted stylesheet and that one span
child. -/
theorem shadow_descriptor_attachment (st : ElemState) (s : Shadow) :
    processChild st (Child.shadowDesc s) =
      Except.ok { st with shadowRoot := some ("open", s.sheets, s.children) } ∧
    tag "span" [Child.scalar "s"] =
      Except.ok (Node.elem "span" [] [Node.text "s"] [] none) ∧
    shadow [ShadowChild.sheet 1,
        ShadowChild.node (Node.elem "span" [] [Node.text "s"] [] none)] =
      ⟨[Node.elem "span" [] [Node.text "s"] [] none], [1]⟩ ∧
    tag "div" [Child.shadowDesc (shadow [ShadowChild.sheet 1,
        ShadowChild.node (Node.elem "span" [] [Node.text "s"] [] none)])] =
      Except.ok (Node.elem "div" [] [] []
        (some ("open", [1], [Node.elem "span" [] [Node.text "s"] [] none]))) :=
  ⟨rfl, rfl, rfl, rfl⟩

/-- Claim C7: building a div from the Attr node class="a", the bag entry
class=["b","c"] and the string "hi" yields a div whose class attribute is
"a b c" and whose single child is the text node "hi" — array-valued bag
entries are space-joined before merging, and a scalar child becomes an
appended text node. -/
theorem end_to_end_div_class_hi :
    tag "div" [Child.attrNode (attr "class" "a"),
      Child.attrObj [("class", AttrEntryVal.strs ["b", "c"])],
      Child.scalar "hi"] =
      Except.ok (Node.elem "div" [("class", "a b c")] [Node.text "hi"] [] none) :=
  rfl

/-- Claim C8: `handleAttributeNode` attaches a clone, never the source Attr
node itself: for every attribute set and source node the call succeeds,
hands the source node back exactly as supplied (in particular still
unowned when it was unowned), leaves the target carrying the attribute,
and the same node can therefore be reused across multiple element
constructions, each resulting element carrying the attribute. -/
theorem attr_node_cloned_reusable (attrs : List (String × String))
    (a : AttrNode) (nm1 nm2 : String) :
    (∃ r, handleAttributeNode attrs a = Except.ok (r, a) ∧
      hasAttribute r a.name = true) ∧
    (∃ e1, tag nm1 [Child.attrNode a] = Except.ok e1 ∧
      getAttribute (attrsOf e1) a.name = some a.value) ∧
    (∃ e2, tag nm2 [Child.attrNode a] = Except.ok e2 ∧
      getAttribute (attrsOf e2) a.name = some a.value) := by
  have single : ∀ nm, tag nm [Child.attrNode a] =
      Except.ok (Node.elem nm [(a.name, a.value)] [] [] none) := fun nm => rfl
  refine ⟨?_, ⟨Node.elem nm1 [(a.name, a.value)] [] [] none, single nm1, ?_⟩,
    ⟨Node.elem nm2 [(a.name, a.value)] [] [] none, single nm2, ?_⟩⟩
  · rw [handleAttributeNode_eq]
    refine ⟨_, rfl, ?_⟩
    by_cases h : hasAttribute attrs a.name <;>
      simp [h, hasAttribute_setAttribute_self]
  · simp [attrsOf, getAttribute, List.find?]
  · simp [attrsOf, getAttribute, List.find?]

/-- Claim C9: the closure returned by `shortTag` applied to call-time
children equals `tag` on the preset children concatenated, in order,
before the call-time children — and that run factors as processing the
preset children first, with no other change in semantics. -/
theorem shortTag_preset_concat (name : String) (x y : List Child) :
    shortTag name x y = tag name (x ++ y) ∧
    shortTag name x y =
      ((processList ⟨name, [], [], [], none⟩ x).bind
        (fun st => processList st y)).map finalize := by
  refine ⟨rfl, ?_⟩
  show tag name (x ++ y) = _
  rw [tag, processList_append]

/-- Claim C10: for every children list the exported shortcut `h5` builds
an element whose tag name is "h6", not "h5" — it behaves exactly like
`tag "h6"` and is indistinguishable from `h6`. -/
theorem h5_yields_h6 (children : List Child) :
    h5 children = tag "h6" children ∧
    h5 children = h6 children ∧
    (∃ e, h5 children = Except.ok e ∧ nameOf e = "h6") := by
  refine ⟨?_, rfl, ?_⟩
  · show tag "h6" ([] ++ children) = tag "h6" children
    rw [List.nil_append]
  · obtain ⟨st2, h, hn⟩ := processList_ok ⟨"h6", [], [], [], none⟩ children
    refine ⟨finalize st2, ?_, hn⟩
    show (processList ⟨"h6", [], [], [], none⟩ ([] ++ children)).map finalize = _
    rw [List.nil_append, h]
    rfl

end Ellipsi
